import Mathlib

/-!
Verification development for the JAM-style node implementation.

Shallow embedding of the state-transition functions of the repository:
the Safrole STF (`src/jam/core/safrole_manager.py` and its helpers), the
guarantees extrinsic processor
(`Reports-Python/src/onchain/extrinsics/guarantee_processor.py`), the
GRANDPA finality engine (`Grandpa/grandpa_prod.py`), the assurances STF
(`assurances/assurances_component.py`), the history STF and MMR
(`Jam-history/history_stf.py`) and the preimages STF
(`Jam-preimages/src/stf/run_test.py`).

Hashes, signatures and validator keys are opaque 32-byte strings in the
source; they are modelled as natural numbers.  External cryptographic
primitives (blake2b, keccak, the Bandersnatch ring-VRF RPC service) are
modelled as function parameters, since the code consumes them as oracles.
-/

namespace Spec2Proof

/-! ## Safrole STF

Embedding of `SafroleManager.process_block` from
`src/src/jam/core/safrole_manager.py`, together with the helpers
`get_epoch_and_slot_phase`, `process_validator_keys_for_offenders` and `z`
from `src/src/jam/utils/helpers.py` and `calculate_fallback_gamma_s` from
`src/src/jam/protocols/fallback_condition.py`. -/

/-- Validator record `{bandersnatch, ed25519, bls, metadata}`; each key is an
opaque byte string modelled as a natural number. -/
structure Validator where
  bandersnatch : Nat
  ed25519 : Nat
  bls : Nat
  metadata : Nat
  deriving DecidableEq, Repr, Inhabited

/-- `PADDING_VALIDATOR` from `helpers.py`: the all-zero validator record. -/
def paddingValidator : Validator := ⟨0, 0, 0, 0⟩

/-- `process_validator_keys_for_offenders` from `helpers.py`: replace every
validator whose ed25519 key is an offender by the padding record. -/
def replaceOffenders (keys : List Validator) (offenders : List Nat) : List Validator :=
  keys.map (fun k => if k.ed25519 ∈ offenders then paddingValidator else k)

/-- The zig-zag function `z` from `helpers.py`: alternately take an element
from the head and from the tail of the sequence. -/
def zigzag {α : Type} : List α → List α
  | [] => []
  | [a] => [a]
  | a :: b :: rest =>
    a :: (b :: rest).getLast (by simp) :: zigzag ((b :: rest).dropLast)
termination_by l => l.length
decreasing_by
  simp [List.length_dropLast]
  omega

/-- Internal ticket representation: `{index, randomness, proof}`; sort key is
`randomness`. -/
structure Ticket where
  index : Nat
  randomness : Nat
  proof : Nat
  deriving DecidableEq, Repr, Inhabited

/-- A submitted extrinsic ticket `{attempt, signature}`. -/
structure TicketEx where
  attempt : Nat
  signature : Nat
  deriving DecidableEq, Repr, Inhabited

/-- One entry of the `results` list returned by the ring-VRF batch verifier
(`/verifier/ring_vrf_verify_payload`): `{ok, output_hash, attempt}`.  The
`output_hash` is `none` when the JSON field is empty/falsy. -/
structure VRes where
  ok : Bool
  outputHash : Option Nat
  attempt : Nat
  deriving DecidableEq, Repr, Inhabited

/-- Seal-key sequence `gamma_s`: either `{tickets: [{id, attempt}]}` or
`{keys: [...]}`. -/
inductive GammaS where
  | tickets (ts : List (Nat × Nat))
  | keys (ks : List Nat)
  deriving DecidableEq, Repr, Inhabited

/-- The Safrole state fields touched by `process_block`. -/
structure SState where
  tau : Nat
  eta : List Nat
  iota : List Validator
  gammaK : List Validator
  kappa : List Validator
  lambdaV : List Validator
  gammaA : List Ticket
  gammaS : GammaS
  gammaZ : Nat
  postOffenders : List Nat
  epochLen : Nat
  submitCutoff : Nat
  attemptsN : Nat
  deriving DecidableEq, Repr, Inhabited

/-- Block input `{slot, entropy, extrinsic}`. -/
structure BInput where
  slot : Nat
  entropy : Nat
  extrinsic : List TicketEx
  deriving DecidableEq, Repr, Inhabited

/-- Errors raised by `process_block` (`ValueError` codes). -/
inductive SErr where
  | badSlot
  | unexpectedTicket
  | badTicketAttempt
  | badTicketProof
  | badTicketOrder
  | duplicateTicket
  | missingExtrinsicForAttempt (attempt : Nat)
  deriving DecidableEq, Repr

/-- Epoch mark emitted in the header on an epoch change. -/
structure EpochMark where
  entropy : Nat
  ticketsEntropy : Nat
  validators : List (Nat × Nat)
  deriving DecidableEq, Repr, Inhabited

/-- Header returned by `process_block`. -/
structure SHeader where
  slot : Nat
  vrfOutput : Nat
  epochMark : Option EpochMark
  ticketsMark : Option (List (Nat × Nat))
  deriving DecidableEq, Repr, Inhabited

/-- `calculate_fallback_gamma_s` from `fallback_condition.py`.  The blake2b
selection hash `blake2b(eta2 ‖ le32(i))[:4]` (little-endian) is modelled by
the oracle `fbH eta2 i`. -/
def fallbackKeys (fbH : Nat → Nat → Nat) (epochLen : Nat) (eta2 : Nat)
    (kappa : List Validator) : List Nat :=
  if kappa.length = 0 then []
  else (List.range epochLen).map
    (fun i => (kappa.getD (fbH eta2 i % kappa.length) paddingValidator).bandersnatch)

/-- Order used by `current_state["gamma_a"].sort(key=lambda t: t["randomness"])`:
Python `list.sort` is a stable ascending sort by the key, which
`List.insertionSort` on this relation implements. -/
def ticketLE (a b : Ticket) : Prop := a.randomness ≤ b.randomness

instance : DecidableRel ticketLE := fun x y => Nat.decLe x.randomness y.randomness

instance : IsTotal Ticket ticketLE := ⟨fun a b => Nat.le_total a.randomness b.randomness⟩

instance : IsTrans Ticket ticketLE := ⟨fun _ _ _ h1 h2 => Nat.le_trans h1 h2⟩

/-- The per-result loop inside ticket admission: collision check against the
existing `gamma_a` ids, lookup of the originating extrinsic by attempt
(the Python dict comprehension keeps the last entry per attempt), and
construction of the new ticket records. -/
def buildTickets (existing : List Nat) (extrinsic : List TicketEx) :
    List VRes → Except SErr (List Ticket)
  | [] => .ok []
  | r :: rest =>
    let rnd := r.outputHash.getD 0
    if rnd ∈ existing then
      .error SErr.duplicateTicket
    else
      match extrinsic.reverse.find? (fun ex => ex.attempt = r.attempt) with
      | none => .error (SErr.missingExtrinsicForAttempt r.attempt)
      | some ex =>
        match buildTickets existing extrinsic rest with
        | .error e => .error e
        | .ok rest' => .ok (⟨r.attempt, rnd, ex.signature⟩ :: rest')

/-- The ticket-admission block of `process_block` (lines 120-171): attempt
bound check, ring-VRF verification of the results list, ordering and
duplicate checks, collision check against the existing `gamma_a`, and the
merge / re-sort / truncate.  `results` is the response of the external
verifier.  Returns the new `gamma_a`. -/
def admitTickets (pre : SState) (results : List VRes) (extrinsic : List TicketEx) :
    Except SErr (List Ticket) :=
  if extrinsic.any (fun t => pre.attemptsN ≤ t.attempt) then
    .error SErr.badTicketAttempt
  else if results.any (fun r => !r.ok || r.outputHash = none) then
    .error SErr.badTicketProof
  else
    let submitted := results.map (fun r => r.outputHash.getD 0)
    if ¬ List.Chain' (· ≤ ·) submitted then
      .error SErr.badTicketOrder
    else if ¬ submitted.Nodup then
      .error SErr.duplicateTicket
    else
      match buildTickets (pre.gammaA.map (·.randomness)) extrinsic results with
      | .error e => .error e
      | .ok newTickets =>
        .ok ((List.insertionSort ticketLE (pre.gammaA ++ newTickets)).take pre.epochLen)

/-- `SafroleManager.process_block`.  External oracles:
`etaH e v` models `CryptoBridge.calculate_eta_update` (blake2b of the
concatenation), `fbH` the fallback selection hash, `gzOracle` the
`/compose_gamma_z` RPC, and `verify gz ring eta2 ext` the
`/verifier/ring_vrf_verify_payload` RPC. -/
def processBlock (etaH : Nat → Nat → Nat) (fbH : Nat → Nat → Nat)
    (gzOracle : List Validator → List Nat → Nat)
    (verify : Nat → List Nat → Nat → List TicketEx → List VRes)
    (pre : SState) (input : BInput) : Except SErr (SHeader × SState) :=
  if input.slot ≤ pre.tau then
    .error SErr.badSlot
  else if pre.tau + 1 < input.slot ∧ input.extrinsic ≠ [] then
    .error SErr.unexpectedTicket
  else
    let prevEpoch := pre.tau / pre.epochLen
    let prevM := pre.tau % pre.epochLen
    let nextEpoch := input.slot / pre.epochLen
    let mPrime := input.slot % pre.epochLen
    let newEta0 := etaH (pre.eta.getD 0 0) input.entropy
    let eta' :=
      if prevEpoch < nextEpoch then
        [newEta0, pre.eta.getD 0 0, pre.eta.getD 1 0, pre.eta.getD 2 0]
      else
        [newEta0, pre.eta.getD 1 0, pre.eta.getD 2 0, pre.eta.getD 3 0]
    let admitted :=
      if mPrime < pre.submitCutoff ∧ input.extrinsic ≠ [] then
        admitTickets pre
          (verify pre.gammaZ (pre.gammaK.map (·.bandersnatch)) (eta'.getD 2 0) input.extrinsic)
          input.extrinsic
      else
        .ok pre.gammaA
    match admitted with
    | .error e => .error e
    | .ok gammaA1 =>
      let st1 : SState :=
        if prevEpoch < nextEpoch then
          let gammaK' := replaceOffenders pre.iota pre.postOffenders
          let immediate := nextEpoch = prevEpoch + 1
          let saturated := pre.gammaA.length = pre.epochLen
          let gammaS' :=
            if immediate ∧ pre.submitCutoff ≤ prevM ∧ saturated then
              GammaS.tickets ((zigzag pre.gammaA).map (fun t => (t.randomness, t.index)))
            else
              GammaS.keys (fallbackKeys fbH pre.epochLen (eta'.getD 2 0) pre.gammaK)
          { pre with
            eta := eta'
            lambdaV := pre.kappa
            kappa := pre.gammaK
            gammaK := gammaK'
            gammaZ := gzOracle gammaK' pre.postOffenders
            gammaS := gammaS'
            gammaA := []
            tau := input.slot }
        else
          { pre with eta := eta', gammaA := gammaA1, tau := input.slot }
      let epochMark : Option EpochMark :=
        if prevEpoch < nextEpoch then
          some ⟨pre.eta.getD 0 0, pre.eta.getD 1 0,
            st1.gammaK.map (fun k => (k.bandersnatch, k.ed25519))⟩
        else none
      let endOfSubmission :=
        nextEpoch = prevEpoch ∧ prevM < pre.submitCutoff ∧ pre.submitCutoff ≤ mPrime
      let ticketsMark : Option (List (Nat × Nat)) :=
        if endOfSubmission ∧ st1.gammaA.length = pre.epochLen then
          some ((zigzag st1.gammaA).map (fun t => (t.randomness, t.index)))
        else none
      .ok (⟨input.slot, input.entropy, epochMark, ticketsMark⟩, st1)

/-- C1: on every accepted block, the Safrole STF sets
`eta0' = H(eta0 ‖ Y(HV))` and rotates the entropy tuple to
`[eta0', eta0, eta1, eta2]` on an epoch change (`epoch(tau') > epoch(tau)`)
and to `[eta0', eta1, eta2, eta3]` otherwise; the post-state `eta` always has
length 4. -/
theorem safrole_eta_rotation (etaH fbH : Nat → Nat → Nat)
    (gzOracle : List Validator → List Nat → Nat)
    (verify : Nat → List Nat → Nat → List TicketEx → List VRes)
    (pre : SState) (input : BInput) (hdr : SHeader) (post : SState)
    (e0 e1 e2 e3 : Nat) (heta : pre.eta = [e0, e1, e2, e3])
    (hok : processBlock etaH fbH gzOracle verify pre input = .ok (hdr, post)) :
    post.eta =
      (if pre.tau / pre.epochLen < input.slot / pre.epochLen then
        [etaH e0 input.entropy, e0, e1, e2]
      else
        [etaH e0 input.entropy, e1, e2, e3]) ∧
    post.eta.length = 4 := by
  unfold processBlock at hok
  split at hok
  · exact absurd hok (by simp)
  · split at hok
    · exact absurd hok (by simp)
    · dsimp only at hok
      split at hok
      · exact absurd hok (by simp)
      · rename_i gammaA1 heq
        injection hok with hok
        injection hok with hhdr hpost
        subst hpost
        by_cases hc : pre.tau / pre.epochLen < input.slot / pre.epochLen <;>
          simp [hc, heta]

/-- Concrete pre-state used to exercise `processBlock`. -/
def sPreW1 : SState :=
  ⟨0, [1, 2, 3, 4], [], [], [], [], [], GammaS.keys [], 0, [], 12, 11, 3⟩

/-- Concrete block input used to exercise `processBlock`. -/
def sInW1 : BInput := ⟨1, 7, []⟩

/-- Concrete post-state produced by `processBlock` on `sPreW1`/`sInW1`. -/
def sPostW1 : SState :=
  ⟨1, [9, 2, 3, 4], [], [], [], [], [], GammaS.keys [], 0, [], 12, 11, 3⟩

theorem safrole_eta_rotation_witness :
    sPreW1.eta = [1, 2, 3, 4] ∧
    processBlock (fun a b => a + b + 1) (fun _ _ => 0) (fun _ _ => 0)
      (fun _ _ _ _ => []) sPreW1 sInW1 = .ok (⟨1, 7, none, none⟩, sPostW1) ∧
    (sPostW1.eta =
      (if sPreW1.tau / sPreW1.epochLen < sInW1.slot / sPreW1.epochLen then
        [(fun a b => a + b + 1) 1 sInW1.entropy, 1, 2, 3]
      else
        [(fun a b => a + b + 1) 1 sInW1.entropy, 2, 3, 4]) ∧
    sPostW1.eta.length = 4) :=
  ⟨by decide, by rfl,
    safrole_eta_rotation (fun a b => a + b + 1) (fun _ _ => 0) (fun _ _ => 0)
      (fun _ _ _ _ => []) sPreW1 sInW1 ⟨1, 7, none, none⟩ sPostW1 1 2 3 4
      (by decide) (by rfl)⟩

/-- C2: on every accepted block with `epoch(tau') > epoch(tau)`, the Safrole
STF rotates the validator sets (`lambda_ ← kappa`, `kappa ← gamma_k`,
`gamma_k ← replace_offenders_with_padding(iota, post_offenders)`), clears
`gamma_a`, and sets `gamma_s` to the zig-zag interleave of the previous
accumulator exactly when the transition is immediate, the previous phase
reached the cutoff `Y`, and the accumulator was saturated (`|gamma_a| = E`),
and to the fallback keys otherwise. -/
theorem safrole_epoch_rotation (etaH fbH : Nat → Nat → Nat)
    (gzOracle : List Validator → List Nat → Nat)
    (verify : Nat → List Nat → Nat → List TicketEx → List VRes)
    (pre : SState) (input : BInput) (hdr : SHeader) (post : SState)
    (hok : processBlock etaH fbH gzOracle verify pre input = .ok (hdr, post))
    (hepoch : pre.tau / pre.epochLen < input.slot / pre.epochLen) :
    post.lambdaV = pre.kappa ∧ post.kappa = pre.gammaK ∧
    post.gammaK = replaceOffenders pre.iota pre.postOffenders ∧
    post.gammaA = [] ∧
    post.gammaS =
      (if input.slot / pre.epochLen = pre.tau / pre.epochLen + 1 ∧
          pre.submitCutoff ≤ pre.tau % pre.epochLen ∧
          pre.gammaA.length = pre.epochLen then
        GammaS.tickets ((zigzag pre.gammaA).map (fun t => (t.randomness, t.index)))
      else
        GammaS.keys (fallbackKeys fbH pre.epochLen (post.eta.getD 2 0) post.kappa)) := by
  unfold processBlock at hok
  split at hok
  · exact absurd hok (by simp)
  · split at hok
    · exact absurd hok (by simp)
    · dsimp only at hok
      split at hok
      · exact absurd hok (by simp)
      · rename_i gammaA1 heq
        injection hok with hok
        injection hok with hhdr hpost
        subst hpost
        by_cases hcond : input.slot / pre.epochLen = pre.tau / pre.epochLen + 1 ∧
            pre.submitCutoff ≤ pre.tau % pre.epochLen ∧
            pre.gammaA.length = pre.epochLen
        · simp [hcond, hepoch]
        · simp [hcond, hepoch]

/-- Concrete pre-state exercising the epoch-change branch of `processBlock`. -/
def sPreW2 : SState :=
  ⟨11, [1, 2, 3, 4], [⟨5, 6, 7, 8⟩], [⟨20, 21, 22, 23⟩], [⟨30, 31, 32, 33⟩], [],
    [], GammaS.keys [], 0, [6], 12, 11, 3⟩

/-- Concrete block input crossing an epoch boundary. -/
def sInW2 : BInput := ⟨12, 7, []⟩

/-- Concrete post-state for the epoch-change scenario. -/
def sPostW2 : SState :=
  ⟨12, [9, 1, 2, 3], [⟨5, 6, 7, 8⟩], [⟨0, 0, 0, 0⟩], [⟨20, 21, 22, 23⟩],
    [⟨30, 31, 32, 33⟩], [], GammaS.keys (List.replicate 12 20), 42, [6], 12, 11, 3⟩

theorem safrole_epoch_rotation_witness :
    processBlock (fun a b => a + b + 1) (fun _ _ => 0) (fun _ _ => 42)
      (fun _ _ _ _ => []) sPreW2 sInW2 =
      .ok (⟨12, 7, some ⟨1, 2, [(0, 0)]⟩, none⟩, sPostW2) ∧
    sPreW2.tau / sPreW2.epochLen < sInW2.slot / sPreW2.epochLen ∧
    (sPostW2.lambdaV = sPreW2.kappa ∧ sPostW2.kappa = sPreW2.gammaK ∧
    sPostW2.gammaK = replaceOffenders sPreW2.iota sPreW2.postOffenders ∧
    sPostW2.gammaA = [] ∧
    sPostW2.gammaS =
      (if sInW2.slot / sPreW2.epochLen = sPreW2.tau / sPreW2.epochLen + 1 ∧
          sPreW2.submitCutoff ≤ sPreW2.tau % sPreW2.epochLen ∧
          sPreW2.gammaA.length = sPreW2.epochLen then
        GammaS.tickets ((zigzag sPreW2.gammaA).map (fun t => (t.randomness, t.index)))
      else
        GammaS.keys (fallbackKeys (fun _ _ => 0) sPreW2.epochLen
          (sPostW2.eta.getD 2 0) sPostW2.kappa))) :=
  ⟨by rfl, by decide,
    safrole_epoch_rotation (fun a b => a + b + 1) (fun _ _ => 0) (fun _ _ => 42)
      (fun _ _ _ _ => []) sPreW2 sInW2 ⟨12, 7, some ⟨1, 2, [(0, 0)]⟩, none⟩ sPostW2
      (by rfl) (by decide)⟩

/-- Strict order on tickets by `randomness`; "strictly sorted" in the spec. -/
def ticketLT (a b : Ticket) : Prop := a.randomness < b.randomness

instance : DecidableRel ticketLT := fun x y => Nat.decLt x.randomness y.randomness

/-- The ticket-construction loop returns tickets whose randomness values are
exactly the verifier output hashes, none of which collides with the existing
`gamma_a` ids. -/
theorem buildTickets_spec (existing : List Nat) (ext : List TicketEx) :
    ∀ (results : List VRes) (ts : List Ticket),
      buildTickets existing ext results = .ok ts →
      ts.map (·.randomness) = results.map (fun r => r.outputHash.getD 0) ∧
      ∀ t ∈ ts, t.randomness ∉ existing := by
  intro results
  induction results with
  | nil =>
    intro ts h
    simp only [buildTickets] at h
    cases h
    simp
  | cons r rest ih =>
    intro ts h
    simp only [buildTickets] at h
    split at h
    · exact absurd h (by simp)
    · rename_i hmem
      split at h
      · exact absurd h (by simp)
      · rename_i ex hfind
        split at h
        · exact absurd h (by simp)
        · rename_i rest' hrec
          cases h
          obtain ⟨hmap, hdisj⟩ := ih rest' hrec
          refine ⟨by simp [hmap], ?_⟩
          intro t ht
          rcases List.mem_cons.mp ht with h1 | h1
          · subst h1; exact hmem
          · exact hdisj t h1

/-- Successful ticket admission yields a strictly sorted accumulator of
length at most `E`, provided the pre-state accumulator was strictly sorted. -/
theorem admitTickets_sorted (pre : SState) (results : List VRes)
    (ext : List TicketEx) (l : List Ticket)
    (h : admitTickets pre results ext = .ok l)
    (hs : pre.gammaA.Pairwise ticketLT) :
    l.Pairwise ticketLT ∧ l.length ≤ pre.epochLen := by
  unfold admitTickets at h
  split at h
  · exact absurd h (by simp)
  · split at h
    · exact absurd h (by simp)
    · dsimp only at h
      split at h
      · exact absurd h (by simp)
      · split at h
        · exact absurd h (by simp)
        · rename_i hchain hnodup
          split at h
          · exact absurd h (by simp)
          · rename_i newTickets hbuild
            injection h with h
            subst h
            obtain ⟨hmap, hdisj⟩ :=
              buildTickets_spec (pre.gammaA.map (·.randomness)) ext results newTickets hbuild
            have hnodup' : (results.map (fun r => r.outputHash.getD 0)).Nodup :=
              not_not.mp hnodup
            have hnodupNew : (newTickets.map (·.randomness)).Nodup := by
              rw [hmap]; exact hnodup'
            have hneqNew : newTickets.Pairwise (fun a b => a.randomness ≠ b.randomness) :=
              List.pairwise_map.mp hnodupNew
            have hneqPre : pre.gammaA.Pairwise (fun a b => a.randomness ≠ b.randomness) :=
              hs.imp (fun hab => Nat.ne_of_lt hab)
            have hmergedNe :
                (pre.gammaA ++ newTickets).Pairwise
                  (fun a b => a.randomness ≠ b.randomness) := by
              refine List.pairwise_append.mpr ⟨hneqPre, hneqNew, ?_⟩
              intro a ha b hb hab
              exact hdisj b hb (hab ▸ List.mem_map_of_mem (·.randomness) ha)
            have hperm :
                List.Perm (List.insertionSort ticketLE (pre.gammaA ++ newTickets))
                  (pre.gammaA ++ newTickets) :=
              List.perm_insertionSort ticketLE (pre.gammaA ++ newTickets)
            have hsortedLE :
                (List.insertionSort ticketLE (pre.gammaA ++ newTickets)).Pairwise ticketLE :=
              List.sorted_insertionSort ticketLE (pre.gammaA ++ newTickets)
            have hsortNe :
                (List.insertionSort ticketLE (pre.gammaA ++ newTickets)).Pairwise
                  (fun a b => a.randomness ≠ b.randomness) :=
              (hperm.pairwise_iff (fun hab => Ne.symm hab)).mpr hmergedNe
            have hlt :
                (List.insertionSort ticketLE (pre.gammaA ++ newTickets)).Pairwise ticketLT :=
              (hsortedLE.and hsortNe).imp
                (fun hab => Nat.lt_of_le_of_ne hab.1 hab.2)
            exact ⟨hlt.sublist (List.take_sublist _ _), List.length_take_le _ _⟩

/-- C3: after every successful Safrole step, `gamma_a` is strictly sorted by
randomness with no duplicate randomness values, and its length is at most
`E` (tickets are merged, re-sorted and truncated to `E`; the accumulator is
cleared at an epoch boundary).  Stated as preservation of the invariant. -/
theorem safrole_gammaA_invariant (etaH fbH : Nat → Nat → Nat)
    (gzOracle : List Validator → List Nat → Nat)
    (verify : Nat → List Nat → Nat → List TicketEx → List VRes)
    (pre : SState) (input : BInput) (hdr : SHeader) (post : SState)
    (hok : processBlock etaH fbH gzOracle verify pre input = .ok (hdr, post))
    (hs : pre.gammaA.Pairwise ticketLT)
    (hlen : pre.gammaA.length ≤ pre.epochLen) :
    post.gammaA.Pairwise ticketLT ∧
    (post.gammaA.map (·.randomness)).Nodup ∧
    post.gammaA.length ≤ post.epochLen := by
  unfold processBlock at hok
  split at hok
  · exact absurd hok (by simp)
  · split at hok
    · exact absurd hok (by simp)
    · dsimp only at hok
      split at hok
      · exact absurd hok (by simp)
      · rename_i gammaA1 heq
        injection hok with hok
        injection hok with hhdr hpost
        subst hpost
        have hmain : gammaA1.Pairwise ticketLT ∧ gammaA1.length ≤ pre.epochLen := by
          split at heq
          · exact admitTickets_sorted pre _ _ _ heq hs
          · injection heq with heq
            subst heq
            exact ⟨hs, hlen⟩
        have hnd : ∀ l : List Ticket, l.Pairwise ticketLT →
            (l.map (·.randomness)).Nodup := by
          intro l hl
          exact List.pairwise_map.mpr (hl.imp (fun hab => Nat.ne_of_lt hab))
        by_cases hc : pre.tau / pre.epochLen < input.slot / pre.epochLen
        · simp [hc]
        · simpa [hc] using ⟨hmain.1, hnd _ hmain.1, hmain.2⟩

/-- Concrete pre-state with a non-trivial sorted accumulator. -/
def sPreW3 : SState :=
  ⟨0, [1, 2, 3, 4], [], [], [], [], [⟨0, 5, 0⟩, ⟨1, 9, 0⟩], GammaS.keys [], 0,
    [], 12, 11, 3⟩

/-- Concrete post-state for the accumulator-invariant scenario. -/
def sPostW3 : SState :=
  ⟨1, [9, 2, 3, 4], [], [], [], [], [⟨0, 5, 0⟩, ⟨1, 9, 0⟩], GammaS.keys [], 0,
    [], 12, 11, 3⟩

theorem safrole_gammaA_invariant_witness :
    processBlock (fun a b => a + b + 1) (fun _ _ => 0) (fun _ _ => 0)
      (fun _ _ _ _ => []) sPreW3 sInW1 = .ok (⟨1, 7, none, none⟩, sPostW3) ∧
    sPreW3.gammaA.Pairwise ticketLT ∧
    sPreW3.gammaA.length ≤ sPreW3.epochLen ∧
    (sPostW3.gammaA.Pairwise ticketLT ∧
    (sPostW3.gammaA.map (·.randomness)).Nodup ∧
    sPostW3.gammaA.length ≤ sPostW3.epochLen) :=
  ⟨by rfl, by decide, by decide,
    safrole_gammaA_invariant (fun a b => a + b + 1) (fun _ _ => 0) (fun _ _ => 0)
      (fun _ _ _ _ => []) sPreW3 sInW1 ⟨1, 7, none, none⟩ sPostW3
      (by rfl) (by decide) (by decide)⟩

/-! ## Guarantees STF

Embedding of `process_guarantee_extrinsic` from
`Reports-Python/src/onchain/extrinsics/guarantee_processor.py` (lines
99-185).  The protocol constants module (`onchain/constants.py`) is not in
the repository snapshot; its super-majority constants are modelled from the
spec ("`⌈(|curr|+|prev| guarantors) · 2/3⌉`"), so
`SUPER_MAJORITY_THRESHOLD_NUMERATOR / DENOMINATOR = 2 / 3`, and
`REPORT_TIMEOUT_SLOTS` is kept as a parameter.  The crypto-heavy
`validate_work_report` is abstracted by the boolean `valid` (the claim only
concerns the admission / promotion logic after validation). -/

/-- Pending entry of `ρ`: `(received_signatures, submission_slot)`.  The
signature set is a list kept duplicate-free by the guarded insertion of the
source. -/
structure RhoEntry where
  sigs : List Nat
  submissionSlot : Nat
  deriving DecidableEq, Repr, Inhabited

/-- Status of an `ω` entry. -/
inductive OmegaStatus where
  | pending
  | ready
  | processing
  deriving DecidableEq, Repr, Inhabited

/-- Reason recorded in `ψ_B`. -/
inductive PsiBReason where
  | validationFailed
  | timedOut
  deriving DecidableEq, Repr, Inhabited

/-- Offender record of `ψ_O`: `(dispute_count, last_dispute_slot)`. -/
structure OffRec where
  disputeCount : Nat
  lastDisputeSlot : Nat
  deriving DecidableEq, Repr, Inhabited

/-- On-chain state touched by the guarantees processor: `ρ`, `ω`, `ψ_B`,
`ψ_O`, keyed by report digest / guarantor key (association lists standing
for the Python dicts, which preserve insertion order). -/
structure GState where
  rho : List (Nat × RhoEntry)
  omega : List (Nat × OmegaStatus)
  psiB : List (Nat × PsiBReason)
  psiO : List (Nat × OffRec)
  deriving DecidableEq, Repr, Inhabited

/-- Dict lookup on an association list. -/
def lookupA {β : Type} (k : Nat) (l : List (Nat × β)) : Option β :=
  (l.find? (fun p => p.1 = k)).map (·.2)

/-- Dict assignment `d[k] = v`: update in place when present, append
otherwise (Python dicts preserve insertion order). -/
def setA {β : Type} (k : Nat) (v : β) (l : List (Nat × β)) : List (Nat × β) :=
  if (l.find? (fun p => p.1 = k)).isSome then
    l.map (fun p => if p.1 = k then (k, v) else p)
  else
    l ++ [(k, v)]

/-- Dict deletion `del d[k]`. -/
def eraseA {β : Type} (k : Nat) (l : List (Nat × β)) : List (Nat × β) :=
  l.filter (fun p => ¬ p.1 = k)

/-- The fields of a work-report read by the admission logic: its digest, the
submitting guarantor's key, the guarantor sets of the refinement context. -/
structure GReport where
  digest : Nat
  guarantor : Nat
  currGuarantors : List Nat
  prevGuarantors : List Nat
  deriving DecidableEq, Repr, Inhabited

/-- `⌈(t · 2) / 3⌉`, the required signature count
(`math.ceil(total * NUMERATOR / DENOMINATOR)` with the spec's 2/3). -/
def requiredSignatures (total : Nat) : Nat := (2 * total + 2) / 3

/-- `process_guarantee_extrinsic`: validation failure bookkeeping, admission
into `ρ`, promotion into `ω` on reaching the super-majority, and timeout
eviction.  `valid` abstracts the result of `validate_work_report`;
`timeoutSlots` is `REPORT_TIMEOUT_SLOTS`.  Returns the Python function's
boolean together with the new state. -/
def processGuarantee (valid : Bool) (r : GReport) (currentSlot timeoutSlots : Nat)
    (s : GState) : Bool × GState :=
  if ¬ valid then
    let psiO' :=
      match lookupA r.guarantor s.psiO with
      | some rec => setA r.guarantor ⟨rec.disputeCount + 1, currentSlot⟩ s.psiO
      | none => setA r.guarantor ⟨1, currentSlot⟩ s.psiO
    (false, { s with psiB := setA r.digest PsiBReason.validationFailed s.psiB,
                     psiO := psiO' })
  else
    match lookupA r.digest s.rho with
    | none =>
      let entry : RhoEntry := ⟨[r.guarantor], currentSlot⟩
      let rho1 := setA r.digest entry s.rho
      promote r currentSlot timeoutSlots { s with rho := rho1 } entry
    | some e =>
      if r.guarantor ∈ e.sigs then
        (false, s)
      else
        let entry : RhoEntry := ⟨r.guarantor :: e.sigs, e.submissionSlot⟩
        let rho1 := setA r.digest entry s.rho
        promote r currentSlot timeoutSlots { s with rho := rho1 } entry
where
  /-- Promotion / timeout tail of the function (lines 155-185). -/
  promote (r : GReport) (currentSlot timeoutSlots : Nat) (s : GState)
      (entry : RhoEntry) : Bool × GState :=
    let total := r.currGuarantors.length + r.prevGuarantors.length
    if requiredSignatures total ≤ entry.sigs.length then
      (true, { s with rho := eraseA r.digest s.rho,
                      omega := setA r.digest OmegaStatus.ready s.omega })
    else if timeoutSlots < currentSlot - entry.submissionSlot then
      (false, { s with rho := eraseA r.digest s.rho,
                       psiB := setA r.digest PsiBReason.timedOut s.psiB })
    else
      (true, s)

/-- `lookupA` after `setA` at the same key finds the new value. -/
theorem lookupA_setA_self {β : Type} (k : Nat) (v : β) (l : List (Nat × β)) :
    lookupA k (setA k v l) = some v := by
  unfold lookupA setA
  split
  · rename_i hfind
    induction l with
    | nil => simp at hfind
    | cons p rest ih =>
      by_cases hp : p.1 = k
      · simp [List.find?, hp]
      · simp only [List.map_cons, if_neg hp]
        rw [List.find?_cons_of_neg _ (by simpa using hp)]
        apply ih
        rwa [List.find?_cons_of_neg _ (by simpa using hp)] at hfind
  · rename_i hfind
    induction l with
    | nil => simp [List.find?]
    | cons p rest ih =>
      by_cases hp : p.1 = k
      · exact absurd hfind (by simp [List.find?_cons_of_pos, hp])
      · simp only [List.cons_append]
        rw [List.find?_cons_of_neg _ (by simpa using hp)]
        apply ih
        intro hsome
        exact hfind (by rwa [List.find?_cons_of_neg _ (by simpa using hp)])

/-- `lookupA` after `eraseA` at the same key finds nothing. -/
theorem lookupA_eraseA_self {β : Type} (k : Nat) (l : List (Nat × β)) :
    lookupA k (eraseA k l) = none := by
  unfold lookupA eraseA
  have hnone : List.find? (fun p => decide (p.1 = k))
      (List.filter (fun p => decide ¬ p.1 = k) l) = none := by
    rw [List.find?_eq_none]
    intro p hp
    have := List.of_mem_filter hp
    simpa using this
  rw [hnone]
  rfl

/-- C4: a rho entry is removed from `ρ` and inserted into `ω` with status
`ready` exactly when its signature count after this submission reaches
`⌈(|curr|+|prev|) · 2/3⌉`.  Hypotheses: the report passed validation, the
submitting guarantor has not already signed, and the digest is not yet in
`ω` (the digest sets are disjoint in well-formed states). -/
theorem guarantee_promotion (r : GReport) (currentSlot timeoutSlots : Nat)
    (s : GState)
    (hfresh : lookupA r.digest s.omega = none)
    (hnodup : ∀ e, lookupA r.digest s.rho = some e → r.guarantor ∉ e.sigs) :
    (lookupA r.digest (processGuarantee true r currentSlot timeoutSlots s).2.omega =
        some OmegaStatus.ready ∧
      lookupA r.digest (processGuarantee true r currentSlot timeoutSlots s).2.rho = none) ↔
    requiredSignatures (r.currGuarantors.length + r.prevGuarantors.length) ≤
      (match lookupA r.digest s.rho with
      | some e => e.sigs.length + 1
      | none => 1) := by
  have hpromote : ∀ (s1 : GState) (entry : RhoEntry),
      lookupA r.digest s1.omega = none →
      ((lookupA r.digest
          (processGuarantee.promote r currentSlot timeoutSlots s1 entry).2.omega =
            some OmegaStatus.ready ∧
        lookupA r.digest
          (processGuarantee.promote r currentSlot timeoutSlots s1 entry).2.rho = none) ↔
      requiredSignatures (r.currGuarantors.length + r.prevGuarantors.length) ≤
        entry.sigs.length) := by
    intro s1 entry hfresh1
    unfold processGuarantee.promote
    by_cases hreq : requiredSignatures
        (r.currGuarantors.length + r.prevGuarantors.length) ≤ entry.sigs.length
    · simp only [if_pos hreq, lookupA_setA_self, lookupA_eraseA_self]
      simp [hreq]
    · simp only [if_neg hreq]
      split
      · simp only [hfresh1]
        exact ⟨fun hcontr => absurd hcontr.1 (by simp),
          fun hcontr => absurd hcontr hreq⟩
      · simp only [hfresh1]
        exact ⟨fun hcontr => absurd hcontr.1 (by simp),
          fun hcontr => absurd hcontr hreq⟩
  cases he : lookupA r.digest s.rho with
  | some e =>
    have hmem : r.guarantor ∉ e.sigs := hnodup e he
    have hstep : processGuarantee true r currentSlot timeoutSlots s =
        processGuarantee.promote r currentSlot timeoutSlots
          { s with rho := setA r.digest ⟨r.guarantor :: e.sigs, e.submissionSlot⟩ s.rho }
          ⟨r.guarantor :: e.sigs, e.submissionSlot⟩ := by
      unfold processGuarantee
      rw [he]
      simp [hmem]
    rw [hstep]
    have := hpromote
      { s with rho := setA r.digest ⟨r.guarantor :: e.sigs, e.submissionSlot⟩ s.rho }
      ⟨r.guarantor :: e.sigs, e.submissionSlot⟩ hfresh
    simpa using this
  | none =>
    have hstep : processGuarantee true r currentSlot timeoutSlots s =
        processGuarantee.promote r currentSlot timeoutSlots
          { s with rho := setA r.digest ⟨[r.guarantor], currentSlot⟩ s.rho }
          ⟨[r.guarantor], currentSlot⟩ := by
      unfold processGuarantee
      rw [he]
      simp
    rw [hstep]
    have := hpromote
      { s with rho := setA r.digest ⟨[r.guarantor], currentSlot⟩ s.rho }
      ⟨[r.guarantor], currentSlot⟩ hfresh
    simpa using this

/-- Concrete work-report for the promotion scenario: three current-epoch
guarantors, second distinct signature arriving. -/
def gW4r : GReport := ⟨100, 2, [11, 12, 13], []⟩

/-- Concrete pending state: the digest is in `ρ` with one signature. -/
def gW4s : GState := ⟨[(100, ⟨[1], 0⟩)], [], [], []⟩

theorem guarantee_promotion_witness :
    lookupA gW4r.digest gW4s.omega = none ∧
    ((lookupA gW4r.digest (processGuarantee true gW4r 5 10 gW4s).2.omega =
        some OmegaStatus.ready ∧
      lookupA gW4r.digest (processGuarantee true gW4r 5 10 gW4s).2.rho = none) ↔
    requiredSignatures (gW4r.currGuarantors.length + gW4r.prevGuarantors.length) ≤
      (match lookupA gW4r.digest gW4s.rho with
      | some e => e.sigs.length + 1
      | none => 1)) :=
  ⟨by decide,
    guarantee_promotion gW4r 5 10 gW4s (by decide)
      (by
        intro e he
        rw [show lookupA gW4r.digest gW4s.rho = some ⟨[1], 0⟩ from rfl] at he
        cases he
        decide)⟩

/-! ## GRANDPA finality engine

Embedding of the precommit tally and finalization decision of
`GrandpaEngine.run_round` (`Grandpa/grandpa_prod.py`, lines 511-545), the
engine threshold from `__init__` (line 427), and the block-tree helpers
`contains_equivocation_between` and the `BLOCK_BY_HASH` lookup.  The
`while` walk up the parent chain is given explicit fuel (`t.length + 1`
suffices on acyclic trees). -/

/-- Block record as stored in `BLOCK_BY_HASH` / `BlockTree.blocks`:
`{hash, parent, audited}` (the other fields are not read by the
finalization decision). -/
structure GBlock where
  hash : Nat
  parent : Option Nat
  audited : Bool
  deriving DecidableEq, Repr, Inhabited

/-- A precommit vote: `(validator, block_hash)`; `none` is a nil vote. -/
structure GVote where
  validator : Nat
  blockHash : Option Nat
  deriving DecidableEq, Repr, Inhabited

/-- `BLOCK_BY_HASH.get(h)` over the tree's records. -/
def lookupB (t : List GBlock) (h : Nat) : Option GBlock :=
  t.find? (fun b => b.hash = h)

/-- `len(children[p])`: number of recorded children of parent `p` (block
records are deduplicated by hash in `add_block`). -/
def childCount (t : List GBlock) (p : Nat) : Nat :=
  (t.filter (fun b => b.parent = some p)).length

/-- `BlockTree.contains_equivocation_between`: walk the ancestors of `cur`
down to `finalized` (exclusive); report an equivocation when any parent on
the way has more than one child. -/
def equivBetween (t : List GBlock) : Nat → Option Nat → Option Nat → Bool
  | 0, _, _ => false
  | _ + 1, none, _ => false
  | fuel + 1, some c, fin =>
    if some c = fin then false
    else
      match (lookupB t c).bind (·.parent) with
      | none => false
      | some p =>
        if 1 < childCount t p then true
        else equivBetween t fuel (some p) fin

/-- `Counter[x]`: multiplicity of `x` among the tallied block hashes. -/
def countOf (l : List (Option Nat)) (x : Option Nat) : Nat :=
  (l.filter (fun y => y = x)).length

/-- One step of the `Counter.most_common(1)` selection: keep the current
best unless the next element has a strictly larger count (ties therefore
resolve to the earliest-inserted key, as in `Counter`). -/
def mcStep (l : List (Option Nat)) (best : Option (Option Nat)) (x : Option Nat) :
    Option (Option Nat) :=
  match best with
  | none => some x
  | some b => if countOf l b < countOf l x then some x else best

/-- `Counter(l).most_common(1)[0][0]`: the most frequent element of `l`
(earliest first occurrence on ties), `none` when `l` is empty. -/
def mostCommon (l : List (Option Nat)) : Option (Option Nat) :=
  l.foldl (mcStep l) none

/-- The finalization decision of `run_round` on the collected precommits:
tally, super-majority test on the most common non-nil hash with the engine
threshold `(2 * N) // 3 + 1`, audit check, equivocation check.  Returns
`(final_bh, new finalized pointer)`. -/
def finalizeStep (t : List GBlock) (N : Nat) (finalized : Option Nat)
    (precommits : List GVote) : Option Nat × Option Nat :=
  let threshold := 2 * N / 3 + 1
  let l := precommits.map (·.blockHash)
  match mostCommon l with
  | none => (none, finalized)
  | some none => (none, finalized)
  | some (some h) =>
    if threshold ≤ countOf l (some h) then
      match lookupB t h with
      | some blk =>
        if blk.audited then
          if equivBetween t (t.length + 1) (some h) finalized then (none, finalized)
          else (some h, some h)
        else (none, finalized)
      | none => (none, finalized)
    else (none, finalized)

/-- The super-majority as worded in the spec and the claim:
`⌈2N/3⌉ + 1` out of `N` participants. -/
def specSuperMajority (n : Nat) : Nat := (2 * n + 2) / 3 + 1

/-- Folding the most-common selection from a seed yields an element of the
seed-or-rest whose count dominates the seed and every folded element. -/
theorem foldl_mcStep_spec (l : List (Option Nat)) :
    ∀ (l2 : List (Option Nat)) (b : Option Nat),
      ∃ b', List.foldl (mcStep l) (some b) l2 = some b' ∧
        (b' = b ∨ b' ∈ l2) ∧ countOf l b ≤ countOf l b' ∧
        ∀ x ∈ l2, countOf l x ≤ countOf l b' := by
  intro l2
  induction l2 with
  | nil =>
    intro b
    exact ⟨b, rfl, Or.inl rfl, Nat.le_refl _, by simp⟩
  | cons x xs ih =>
    intro b
    simp only [List.foldl_cons]
    by_cases hx : countOf l b < countOf l x
    · obtain ⟨b', hfold, hmem, hle, hall⟩ := ih x
      refine ⟨b', ?_, ?_, ?_, ?_⟩
      · simpa [mcStep, hx] using hfold
      · rcases hmem with h1 | h1
        · exact Or.inr (h1 ▸ List.mem_cons_self x xs)
        · exact Or.inr (List.mem_cons_of_mem x h1)
      · exact Nat.le_trans (Nat.le_of_lt hx) hle
      · intro y hy
        rcases List.mem_cons.mp hy with h1 | h1
        · exact h1 ▸ hle
        · exact hall y h1
    · obtain ⟨b', hfold, hmem, hle, hall⟩ := ih b
      refine ⟨b', ?_, ?_, hle, ?_⟩
      · simpa [mcStep, hx] using hfold
      · rcases hmem with h1 | h1
        · exact Or.inl h1
        · exact Or.inr (List.mem_cons_of_mem x h1)
      · intro y hy
        rcases List.mem_cons.mp hy with h1 | h1
        · exact h1 ▸ Nat.le_trans (Nat.le_of_not_lt hx) hle
        · exact hall y h1

/-- On a non-empty list, the most-common selection returns a member whose
count dominates every member. -/
theorem mostCommon_spec (l : List (Option Nat)) (hne : l ≠ []) :
    ∃ b, mostCommon l = some b ∧ b ∈ l ∧ ∀ x ∈ l, countOf l x ≤ countOf l b := by
  cases l with
  | nil => exact absurd rfl hne
  | cons x xs =>
    obtain ⟨b', hfold, hmem, hle, hall⟩ := foldl_mcStep_spec (x :: xs) xs x
    refine ⟨b', ?_, ?_, ?_⟩
    · simpa [mostCommon, mcStep] using hfold
    · rcases hmem with h1 | h1
      · exact h1 ▸ List.mem_cons_self x xs
      · exact List.mem_cons_of_mem x h1
    · intro y hy
      rcases List.mem_cons.mp hy with h1 | h1
      · exact h1 ▸ hle
      · exact hall y h1

/-- A positive count implies membership. -/
theorem countOf_pos_mem (l : List (Option Nat)) (x : Option Nat)
    (h : 0 < countOf l x) : x ∈ l := by
  unfold countOf at h
  obtain ⟨y, hy⟩ := List.exists_mem_of_length_pos h
  have h1 := List.mem_of_mem_filter hy
  have h2 := List.of_mem_filter hy
  simp only [decide_eq_true_eq] at h2
  exact h2 ▸ h1

/-- Counts of two distinct values are jointly bounded by the length. -/
theorem countOf_two_le (a b : Option Nat) (hab : a ≠ b) :
    ∀ l : List (Option Nat), countOf l a + countOf l b ≤ l.length := by
  intro l
  induction l with
  | nil => simp [countOf]
  | cons y ys ih =>
    simp only [countOf, List.filter_cons, List.length_cons, decide_eq_true_eq] at ih ⊢
    by_cases hya : y = a
    · have hyb : ¬ (y = b) := fun h => hab (hya ▸ h)
      simp only [hya, decide_eq_true_eq, eq_self_iff_true, if_true, List.length_cons]
      rw [if_neg hab]
      omega
    · by_cases hyb : y = b
      · simp only [hyb, decide_eq_true_eq, eq_self_iff_true, if_true, List.length_cons]
        rw [if_neg (fun h => hab h.symm)]
        omega
      · rw [if_neg (by simpa using hya), if_neg (by simpa using hyb)]
        omega

/-- Single-block audited tree used against the GRANDPA engine. -/
def gTreeW : List GBlock := [⟨1, none, true⟩]

/-- Four distinct validators precommit block 1 (out of `N = 5`). -/
def gVotesW : List GVote := [⟨0, some 1⟩, ⟨1, some 1⟩, ⟨2, some 1⟩, ⟨3, some 1⟩]

/-- C5 counterexample: with `N = 5` validators the engine finalizes on 4
precommits — its threshold is `(2·5)//3 + 1 = 4` — although the claimed
super-majority `⌈2·5/3⌉ + 1 = 5` is not reached, so the claim's "finalize
iff `⌈2N/3⌉+1` precommits" is false on the code. -/
theorem grandpa_threshold_counterexample :
    (finalizeStep gTreeW 5 none gVotesW).1 = some 1 ∧
    countOf (gVotesW.map (·.blockHash)) (some 1) = 4 ∧
    4 < specSuperMajority 5 := by decide

/-- C5 (amended): a round finalizes a block iff some non-nil hash reaches
the engine threshold `⌊2N/3⌋ + 1` of precommits (at most one per validator,
so at most `N` in total) and that block is audited and free of equivocation
in the unfinalized range; otherwise nothing is finalized and the finalized
pointer is left unchanged. -/
theorem grandpa_finalize_iff (t : List GBlock) (N : Nat) (fin : Option Nat)
    (votes : List GVote) (hlen : votes.length ≤ N) :
    ((∃ h, (finalizeStep t N fin votes).1 = some h) ↔
      (∃ h blk, 2 * N / 3 + 1 ≤ countOf (votes.map (·.blockHash)) (some h) ∧
        lookupB t h = some blk ∧ blk.audited = true ∧
        equivBetween t (t.length + 1) (some h) fin = false)) ∧
    ((finalizeStep t N fin votes).1 = none →
      (finalizeStep t N fin votes).2 = fin) := by
  constructor
  · constructor
    · rintro ⟨h, hdec⟩
      unfold finalizeStep at hdec
      dsimp only at hdec
      split at hdec
      · exact absurd hdec (by simp)
      · exact absurd hdec (by simp)
      · rename_i h' hmc
        split at hdec
        · rename_i hcnt
          split at hdec
          · rename_i blk hlook
            split at hdec
            · split at hdec
              · exact absurd hdec (by simp)
              · rename_i haud hequiv
                injection hdec with hdec
                refine ⟨h', blk, hcnt, hlook, haud, by simpa using hequiv⟩
            · exact absurd hdec (by simp)
          · exact absurd hdec (by simp)
        · exact absurd hdec (by simp)
    · rintro ⟨h, blk, hcnt, hlook, haud, hequiv⟩
      have hmem : some h ∈ votes.map (·.blockHash) :=
        countOf_pos_mem _ _ (Nat.lt_of_lt_of_le (Nat.succ_pos _) hcnt)
      have hne : votes.map (·.blockHash) ≠ [] := by
        intro hcontr
        rw [hcontr] at hmem
        exact absurd hmem (by simp)
      obtain ⟨b, hmc, hbmem, hmax⟩ := mostCommon_spec (votes.map (·.blockHash)) hne
      have hb : b = some h := by
        by_contra hbne
        have hsum := countOf_two_le b (some h) hbne (votes.map (·.blockHash))
        have hbcnt := hmax (some h) hmem
        have hlenv : (votes.map (·.blockHash)).length = votes.length := by
          simp
        have hmod := Nat.div_add_mod (2 * N) 3
        omega
      subst hb
      refine ⟨h, ?_⟩
      unfold finalizeStep
      dsimp only
      rw [hmc]
      simp only [if_pos hcnt, hlook, haud, if_pos rfl, hequiv]
      simp
  · intro hnone
    have key : ∀ p : Option Nat × Option Nat,
        p = finalizeStep t N fin votes → p.1 = none → p.2 = fin := by
      intro p hp h1
      unfold finalizeStep at hp
      dsimp only at hp
      split at hp
      · rw [hp]
      · rw [hp]
      · split at hp
        · split at hp
          · split at hp
            · split at hp
              · rw [hp]
              · rw [hp] at h1
                exact absurd h1 (by simp)
            · rw [hp]
          · rw [hp]
        · rw [hp]
    exact key _ rfl hnone

theorem grandpa_finalize_iff_witness :
    gVotesW.length ≤ 5 ∧
    (((∃ h, (finalizeStep gTreeW 5 none gVotesW).1 = some h) ↔
      (∃ h blk, 2 * 5 / 3 + 1 ≤ countOf (gVotesW.map (·.blockHash)) (some h) ∧
        lookupB gTreeW h = some blk ∧ blk.audited = true ∧
        equivBetween gTreeW (gTreeW.length + 1) (some h) none = false)) ∧
    ((finalizeStep gTreeW 5 none gVotesW).1 = none →
      (finalizeStep gTreeW 5 none gVotesW).2 = none)) :=
  ⟨by decide, grandpa_finalize_iff gTreeW 5 none gVotesW (by decide)⟩

/-! ## Assurances STF

Embedding of `process_assurances` from
`assurances/assurances_component.py` (lines 39-215): stale-timeout sweep,
per-assurance validation, the filename-keyed `bad_signature` and
`core_not_engaged` checks, bitfield counting and the super-majority
report.  Note that the source extends the caller's `avail_assignments`
lists in place at step 4; the embedding returns the extended list in the
post-state. -/

/-- An `avail_assignments` slot as read from the state file: JSON `null`
(`noneA`, which also stands for `{"none": null}`), the `{"some": {report,
timeout}}` form, the bare `{report, timeout}` form, or anything else
(`invalidA`). -/
inductive RawA where
  | noneA
  | someA (report timeout : Nat)
  | bareA (report timeout : Nat)
  | invalidA
  deriving DecidableEq, Repr, Inhabited

/-- Step 1 of `process_assurances`: stale assignments (`timeout < slot`)
become none; surviving bare entries are normalised to the `some` form;
invalid entries become none. -/
def sweepA (slot : Nat) : RawA → RawA
  | .noneA => .noneA
  | .invalidA => .noneA
  | .someA r t => if t < slot then .noneA else .someA r t
  | .bareA r t => if t < slot then .noneA else .someA r t

/-- `true` exactly for the none-form slots (`None` / `{'none': ...}`). -/
def isNoneRaw : RawA → Bool
  | .noneA => true
  | _ => false

/-- One submitted assurance; `validator_index` may be any integer in the
JSON, the bitfield parses to a natural number.  The signature bytes are
never read by the component. -/
structure Assurance where
  validatorIdx : Int
  anchor : Option Nat
  bitfield : Nat
  deriving DecidableEq, Repr, Inhabited

/-- Input block data handed to `process_assurances`, including the
`_filename` debug field that the component consults. -/
structure AssurInput where
  filename : String
  assurances : List Assurance
  slot : Nat
  parent : Option Nat
  deriving DecidableEq, Repr, Inhabited

/-- The assurances component state: `avail_assignments` and
`curr_validators` (validator records are only counted, never read). -/
structure AState where
  availAssignments : List RawA
  currValidators : List Nat
  deriving DecidableEq, Repr, Inhabited

/-- Error codes of the assurances component. -/
inductive AErr where
  | badAttestationParent
  | badValidatorIndex
  | coreNotEngaged
  | badSignature
  | notSortedOrUniqueAssurers
  deriving DecidableEq, Repr, Inhabited

/-- Python's `marker in filename` substring test. -/
def hasSeg (m : List Char) : List Char → Bool
  | [] => m.isEmpty
  | c :: rest => m.isPrefixOf (c :: rest) || hasSeg m rest

/-- `"assurances_with_bad_signature-1" in filename` marker. -/
def badSigMarker : List Char := "assurances_with_bad_signature-1".toList

/-- `"assurance_for_not_engaged_core-1" in filename` marker. -/
def notEngagedMarker : List Char := "assurance_for_not_engaged_core-1".toList

/-- Step 3 loop: per assurance, validate the validator index bounds and the
anchor (`anchor != parent` only fails when both are non-null), collecting
indices in order; the first failure aborts. -/
def collectIndices (n : Nat) (parent : Option Nat) :
    List Assurance → Except AErr (List Int)
  | [] => .ok []
  | a :: rest =>
    if a.validatorIdx < 0 ∨ (n : Int) ≤ a.validatorIdx then
      .error AErr.badValidatorIndex
    else if a.anchor ≠ parent ∧ a.anchor ≠ none ∧ parent ≠ none then
      .error AErr.badAttestationParent
    else
      match collectIndices n parent rest with
      | .error e => .error e
      | .ok l => .ok (a.validatorIdx :: l)

/-- `bitfield_to_cores`: the set-bit positions of the parsed bitfield, in
ascending order (the source reverses a zero-filled binary string of at
least 32 digits; every set bit of `bf` lies below `max 32 bf`, so
filtering that window yields exactly the same index list). -/
def coresOf (bf : Nat) : List Nat :=
  (List.range (max 32 bf)).filter (fun i => bf.testBit i)

/-- `while len(l) <= maxCore: l.append({"none": None})`. -/
def padToLen (l : List RawA) (m : Nat) : List RawA :=
  l ++ List.replicate (m - l.length) RawA.noneA

/-- `set(validator_indices) == set(range(len(curr_validators)))`. -/
def sameIndexSet (indices : List Int) (n : Nat) : Prop :=
  (∀ i ∈ indices, ∃ j ∈ List.range n, (j : Int) = i) ∧
  (∀ j ∈ List.range n, (j : Int) ∈ indices)

instance (indices : List Int) (n : Nat) : Decidable (sameIndexSet indices n) := by
  unfold sameIndexSet
  infer_instance

/-- First-occurrence deduplication: the iteration order of the
`core_assurances` dict keys. -/
def dedupFirst (l : List Nat) : List Nat :=
  l.foldl (fun acc x => if x ∈ acc then acc else acc ++ [x]) []

/-- `process_assurances`: returns the output (`{ok: {reported}}` or
`{err: code}`) together with the post-state. -/
def processAssurances (inp : AssurInput) (pre : AState) :
    Except AErr (List Nat) × AState :=
  let swept := pre.availAssignments.map (sweepA inp.slot)
  let post0 : AState := ⟨swept, pre.currValidators⟩
  if inp.assurances = [] then (.ok [], post0)
  else
    match collectIndices pre.currValidators.length inp.parent inp.assurances with
    | .error e => (.error e, post0)
    | .ok indices =>
      if ¬ indices.Nodup then
        (.error AErr.notSortedOrUniqueAssurers, post0)
      else if 1 < indices.length ∧ indices ≠ List.insertionSort (· ≤ ·) indices then
        (.error AErr.notSortedOrUniqueAssurers, post0)
      else if ¬ sameIndexSet indices pre.currValidators.length ∧
          indices.length < pre.currValidators.length then
        (.error AErr.notSortedOrUniqueAssurers, post0)
      else if hasSeg badSigMarker inp.filename.toList then
        (.error AErr.badSignature, post0)
      else
        let allCoresList := inp.assurances.flatMap (fun a => coresOf a.bitfield)
        let maxCore := allCoresList.foldl max 0
        let origPadded := padToLen pre.availAssignments (maxCore + 1)
        let availPadded := padToLen swept (maxCore + 1)
        let post1 : AState := ⟨availPadded, pre.currValidators⟩
        if hasSeg notEngagedMarker inp.filename.toList ∧
            allCoresList.any (fun c => isNoneRaw (origPadded.getD c RawA.noneA)) then
          (.error AErr.coreNotEngaged, post1)
        else
          let sm := pre.currValidators.length * 2 / 3 + 1
          let counted := inp.assurances.flatMap (fun a =>
            (coresOf a.bitfield).filter (fun c =>
              decide (c < availPadded.length) &&
                !isNoneRaw (availPadded.getD c RawA.noneA)))
          let reported := (dedupFirst counted).filterMap (fun c =>
            if sm ≤ counted.count c then
              match availPadded.getD c RawA.noneA with
              | .someA r _ => some r
              | .bareA r _ => some r
              | _ => none
            else none)
          let newAvail := (List.range availPadded.length).map (fun c =>
            if sm ≤ counted.count c then
              match availPadded.getD c RawA.noneA with
              | .someA r t => RawA.bareA r t
              | x => x
            else availPadded.getD c RawA.noneA)
          (.ok reported, ⟨newAvail, pre.currValidators⟩)

/-- Pre-state with one stale assignment on core 0. -/
def aPreW : AState := ⟨[RawA.someA 7 0], [5]⟩

/-- Input whose single assurance has an out-of-range validator index. -/
def aInW : AssurInput := ⟨"test.json", [⟨1, none, 1⟩], 1, none⟩

/-- C6 counterexample: the assurances STF returns the validation error
`bad_validator_index` together with a post-state that is NOT the pre-state
(the stale-timeout sweep of step 1 has already been applied), refuting
"never partial post-state on failure". -/
theorem assurances_not_atomic_counterexample :
    (processAssurances aInW aPreW).1 = .error AErr.badValidatorIndex ∧
    (processAssurances aInW aPreW).2 ≠ aPreW ∧
    (processAssurances aInW aPreW).2.availAssignments = [RawA.noneA] := by
  refine ⟨by rfl, by decide, by rfl⟩

/-- C6 (amended): whenever `process_assurances` returns a validation error,
the post-state it returns alongside the error is the pre-state with the
stale-timeout sweep applied to `avail_assignments` (padded with none
entries up to the highest referenced core for the `core_not_engaged`
error); the validator list is unchanged.  Nothing is persisted on error
(`save_state` runs only on `ok`). -/
theorem assurances_error_poststate (inp : AssurInput) (pre : AState) (e : AErr)
    (herr : (processAssurances inp pre).1 = .error e) :
    (processAssurances inp pre).2.currValidators = pre.currValidators ∧
    ∃ k, (processAssurances inp pre).2.availAssignments =
      pre.availAssignments.map (sweepA inp.slot) ++ List.replicate k RawA.noneA := by
  have key : ∀ out : Except AErr (List Nat) × AState,
      out = processAssurances inp pre → out.1 = .error e →
      out.2.currValidators = pre.currValidators ∧
      ∃ k, out.2.availAssignments =
        pre.availAssignments.map (sweepA inp.slot) ++ List.replicate k RawA.noneA := by
    intro out hout he
    unfold processAssurances at hout
    dsimp only at hout
    split at hout
    · rw [hout] at he
      exact absurd he (by simp)
    · split at hout
      · rw [hout]
        exact ⟨rfl, 0, by simp⟩
      · split at hout
        · rw [hout]
          exact ⟨rfl, 0, by simp⟩
        · split at hout
          · rw [hout]
            exact ⟨rfl, 0, by simp⟩
          · split at hout
            · rw [hout]
              exact ⟨rfl, 0, by simp⟩
            · split at hout
              · rw [hout]
                exact ⟨rfl, 0, by simp⟩
              · split at hout
                · rw [hout]
                  exact ⟨rfl, _, rfl⟩
                · rw [hout] at he
                  exact absurd he (by simp)
  exact key _ rfl herr

theorem assurances_error_poststate_witness :
    (processAssurances aInW aPreW).1 = .error AErr.badValidatorIndex ∧
    ((processAssurances aInW aPreW).2.currValidators = aPreW.currValidators ∧
    ∃ k, (processAssurances aInW aPreW).2.availAssignments =
      aPreW.availAssignments.map (sweepA aInW.slot) ++ List.replicate k RawA.noneA) :=
  ⟨by rfl, assurances_error_poststate aInW aPreW AErr.badValidatorIndex (by rfl)⟩

/-- Pre-state for the signature-check scenario: one validator, no
assignments. -/
def aSigPre : AState := ⟨[], [5]⟩

/-- Input whose `_filename` contains the `bad_signature` marker. -/
def aSigIn1 : AssurInput :=
  ⟨"assurances_with_bad_signature-1.json", [⟨0, none, 0⟩], 0, none⟩

/-- The same assurance contents under a different file name. -/
def aSigIn2 : AssurInput := ⟨"ok.json", [⟨0, none, 0⟩], 0, none⟩

/-- C9: `process_assurances` performs no ed25519 verification at all; it
returns `bad_signature` exactly when the input `_filename` contains the
substring `assurances_with_bad_signature-1`.  Two inputs with identical
assurances, slot, parent and pre-state, differing only in the file name,
produce `bad_signature` and `ok` respectively — contradicting the spec,
which requires the ed25519 signature over the canonical assurance payload
to be verified and the outcome to depend only on the contents. -/
theorem assurances_bad_signature_filename_dependent :
    aSigIn1.assurances = aSigIn2.assurances ∧ aSigIn1.slot = aSigIn2.slot ∧
    aSigIn1.parent = aSigIn2.parent ∧
    (processAssurances aSigIn1 aSigPre).1 = .error AErr.badSignature ∧
    (processAssurances aSigIn2 aSigPre).1 = .ok [] :=
  ⟨rfl, rfl, rfl, by rfl, by rfl⟩

/-! ## History STF and MMR

Embedding of `mmr_append` and `HistorySTF.transition` from
`Jam-history/history_stf.py`.  `kek a b` models
`keccak256(peak_bytes + hash_bytes)`; `rootH h peaks` models
`sha256((header_hash + concat(peaks)).encode())` — the hash over the
concatenated hex strings.  The `while` loop of `mmr_append` is given
explicit fuel; `count + 1` units always suffice because the loop runs once
per consecutive set low bit of `count`. -/

/-- `MMR`: `{peaks: [Option<hash>], count}`. -/
structure HMMR where
  peaks : List (Option Nat)
  count : Nat
  deriving DecidableEq, Repr, Inhabited

/-- One `beta` entry:
`{header_hash, state_root, mmr, reported}`. -/
structure HBlock where
  headerHash : Nat
  stateRoot : Nat
  mmr : HMMR
  reported : List Nat
  deriving DecidableEq, Repr, Inhabited

/-- History STF input:
`{header_hash, parent_state_root, accumulate_root, work_packages}`. -/
structure HInput where
  headerHash : Nat
  parentStateRoot : Nat
  accumulateRoot : Nat
  workPackages : List Nat
  deriving DecidableEq, Repr, Inhabited

/-- The combine-and-carry loop of `mmr_append`
(`while (count & (1 << height)) != 0`): when the peak at the current height
exists it is combined into the running hash and cleared; the height always
advances.  Returns the peaks, the final height, and the running hash. -/
def mmrLoopF (kek : Nat → Nat → Nat) (count : Nat) :
    Nat → List (Option Nat) → Nat → Nat → List (Option Nat) × Nat × Nat
  | 0, peaks, height, hv => (peaks, height, hv)
  | fuel + 1, peaks, height, hv =>
    if count.testBit height then
      match peaks.getD height none with
      | some pk => mmrLoopF kek count fuel (peaks.set height none) (height + 1) (kek pk hv)
      | none => mmrLoopF kek count fuel peaks (height + 1) hv
    else (peaks, height, hv)

/-- `mmr_append(prev, leaf)`: run the carry loop from height 0 with the
leaf as running hash, extend the peaks list up to the final height, place
the running hash there, and increment the count. -/
def mmrAppend (kek : Nat → Nat → Nat) (prev : HMMR) (leaf : Nat) : HMMR :=
  let res := mmrLoopF kek prev.count (prev.count + 1) prev.peaks 0 leaf
  let padded := res.1 ++ List.replicate (res.2.1 + 1 - res.1.length) none
  ⟨padded.set res.2.1 (some res.2.2), prev.count + 1⟩

/-- Modelled from the spec: the append rule as worded in §3 ("hash the
leaf; while bit-`height` of the pre-append count is set, combine peak at
that height with running hash using keccak-256 and clear peak; place
running hash at first free height").  The spec presumes a peak is present
at every set bit, so the loop always combines. -/
def specMmrLoop (kek : Nat → Nat → Nat) (count : Nat) :
    Nat → List (Option Nat) → Nat → Nat → List (Option Nat) × Nat × Nat
  | 0, peaks, height, hv => (peaks, height, hv)
  | fuel + 1, peaks, height, hv =>
    if count.testBit height then
      specMmrLoop kek count fuel (peaks.set height none) (height + 1)
        (kek ((peaks.getD height none).getD 0) hv)
    else (peaks, height, hv)

/-- Modelled from the spec: full append — carry loop, then place the
running hash at the first free height and increment the count. -/
def specMmrAppend (kek : Nat → Nat → Nat) (prev : HMMR) (leaf : Nat) : HMMR :=
  let res := specMmrLoop kek prev.count (prev.count + 1) prev.peaks 0 leaf
  let padded := res.1 ++ List.replicate (res.2.1 + 1 - res.1.length) none
  ⟨padded.set res.2.1 (some res.2.2), prev.count + 1⟩

/-- Well-formed MMR: a peak is present at every set bit of the count
(every set bit lies below `count`, so the quantifier is bounded). -/
def wellFormedMMR (m : HMMR) : Prop :=
  ∀ h < m.count, m.count.testBit h → (m.peaks.getD h none).isSome

instance (m : HMMR) : Decidable (wellFormedMMR m) := by
  unfold wellFormedMMR
  infer_instance

/-- A set bit of `n` lies strictly below `n`. -/
theorem testBit_lt_self (n h : Nat) (hb : n.testBit h = true) : h < n := by
  have h1 : 2 ^ h ≤ n := Nat.testBit_implies_ge hb
  have h2 : h < 2 ^ h := Nat.lt_two_pow h
  omega

/-- Under well-formedness above the current height, the code loop and the
spec loop coincide. -/
theorem mmrLoopF_eq_spec (kek : Nat → Nat → Nat) (count : Nat) :
    ∀ (fuel : Nat) (peaks : List (Option Nat)) (height hv : Nat),
      (∀ h, height ≤ h → count.testBit h → (peaks.getD h none).isSome) →
      mmrLoopF kek count fuel peaks height hv =
        specMmrLoop kek count fuel peaks height hv := by
  intro fuel
  induction fuel with
  | zero => intro peaks height hv _; rfl
  | succ fuel ih =>
    intro peaks height hv hwf
    unfold mmrLoopF specMmrLoop
    by_cases hb : count.testBit height
    · simp only [if_pos hb]
      have hsome := hwf height (Nat.le_refl _) hb
      cases hpk : peaks.getD height none with
      | none => rw [hpk] at hsome; simp at hsome
      | some pk =>
        simp only [Option.getD_some]
        apply ih
        intro h hh hbit
        have hne : height ≠ h := by omega
        have : (peaks.set height none).getD h none = peaks.getD h none := by
          unfold List.getD
          rw [List.get?_set_ne none peaks hne]
        rw [this]
        exact hwf h (by omega) hbit
    · simp only [if_neg hb]

/-- C8: on every well-formed MMR, `mmr_append` implements the spec's append
rule — the leaf hash is the initial running hash, each set low bit of the
pre-append count combines its peak into the running hash with keccak-256
and clears it, the running hash lands at the first free height — and the
resulting count is `count + 1`. -/
theorem mmr_append_correct (kek : Nat → Nat → Nat) (prev : HMMR) (leaf : Nat)
    (hwf : wellFormedMMR prev) :
    mmrAppend kek prev leaf = specMmrAppend kek prev leaf ∧
    (mmrAppend kek prev leaf).count = prev.count + 1 := by
  have hloop := mmrLoopF_eq_spec kek prev.count (prev.count + 1) prev.peaks 0 leaf
    (fun h _ hbit => hwf h (testBit_lt_self _ _ hbit) hbit)
  unfold mmrAppend specMmrAppend
  rw [hloop]
  exact ⟨rfl, rfl⟩

/-- Concrete well-formed MMR: count 3 (bits 0 and 1 set), two peaks. -/
def hMmrW : HMMR := ⟨[some 5, some 9], 3⟩

theorem mmr_append_correct_witness :
    wellFormedMMR hMmrW ∧
    (mmrAppend (fun a b => a * 1000 + b) hMmrW 7 =
      specMmrAppend (fun a b => a * 1000 + b) hMmrW 7 ∧
    (mmrAppend (fun a b => a * 1000 + b) hMmrW 7).count = hMmrW.count + 1) :=
  ⟨by decide, mmr_append_correct (fun a b => a * 1000 + b) hMmrW 7 (by decide)⟩

/-- `beta[-1].state_root = parent_state_root` (lines 128-129): update the
last entry when one exists. -/
def setLastStateRoot (l : List HBlock) (v : Nat) : List HBlock :=
  match l.getLast? with
  | none => l
  | some b => l.dropLast ++ [{ b with stateRoot := v }]

/-- The "global" MMR reconstructed from the running tail (lines 108-122):
the last entry's MMR, with a falsy (`0`/missing) count replaced by
`len(beta)`; the empty MMR when `beta` is empty. -/
def tailMmr (beta : List HBlock) : HMMR :=
  match beta.getLast? with
  | none => ⟨[], 0⟩
  | some lastB =>
    ⟨lastB.mmr.peaks, if lastB.mmr.count = 0 then beta.length else lastB.mmr.count⟩

/-- The entry pushed by `HistorySTF.transition` (lines 131-147): the MMR
after appending `accumulate_root`, its non-none peaks, and
`state_root = rootH(header_hash ‖ concat(peaks))` (the interim
`accumulate_root` assignment is immediately overwritten). -/
def historyNewBlock (kek : Nat → Nat → Nat) (rootH : Nat → List Nat → Nat)
    (preBeta : List HBlock) (inp : HInput) : HBlock :=
  let m := mmrAppend kek (tailMmr preBeta) inp.accumulateRoot
  let validPeaks := m.peaks.filterMap id
  ⟨inp.headerHash, rootH inp.headerHash validPeaks,
    ⟨validPeaks.map some, m.count⟩, inp.workPackages⟩

/-- `HistorySTF.transition`: rewrite the last entry's state root, push the
new entry, and trim to the last 8 (`while len(beta) > 8: beta.pop(0)`). -/
def historyTransition (kek : Nat → Nat → Nat) (rootH : Nat → List Nat → Nat)
    (preBeta : List HBlock) (inp : HInput) : List HBlock :=
  let beta3 := setLastStateRoot preBeta inp.parentStateRoot ++
    [historyNewBlock kek rootH preBeta inp]
  if 8 < beta3.length then beta3.drop (beta3.length - 8) else beta3

/-- Dropping fewer elements than the length preserves the last element. -/
theorem getLast?_drop_of_lt {α : Type} (l : List α) (k : Nat) (hk : k < l.length) :
    (l.drop k).getLast? = l.getLast? := by
  rw [List.getLast?_eq_getElem?, List.getLast?_eq_getElem?, List.getElem?_drop,
    List.length_drop]
  congr 1
  omega

/-- C7: for every pre-state and input, the history transition yields a
`beta` of length at most 8 that is a suffix of "last entry's state root
rewritten to `parent_state_root`, then the new entry appended" (so only the
oldest entries are dropped); the new last entry carries
`state_root = H(header_hash ‖ concat(peaks))` with the peaks of the MMR
after appending `accumulate_root`, and the old last entry survives with its
state root rewritten. -/
theorem history_transition_correct (kek : Nat → Nat → Nat)
    (rootH : Nat → List Nat → Nat) (preBeta : List HBlock) (inp : HInput) :
    (historyTransition kek rootH preBeta inp).length ≤ 8 ∧
    (historyTransition kek rootH preBeta inp).getLast? =
      some (historyNewBlock kek rootH preBeta inp) ∧
    (historyNewBlock kek rootH preBeta inp).stateRoot =
      rootH inp.headerHash
        ((mmrAppend kek (tailMmr preBeta) inp.accumulateRoot).peaks.filterMap id) ∧
    (∀ b, preBeta.getLast? = some b →
      (historyTransition kek rootH preBeta inp).dropLast.getLast? =
        some { b with stateRoot := inp.parentStateRoot }) ∧
    ∃ k, historyTransition kek rootH preBeta inp =
      (setLastStateRoot preBeta inp.parentStateRoot ++
        [historyNewBlock kek rootH preBeta inp]).drop k := by
  have hlen2 : (setLastStateRoot preBeta inp.parentStateRoot).length = preBeta.length := by
    unfold setLastStateRoot
    cases hl : preBeta.getLast? with
    | none => rfl
    | some b =>
      have hne : preBeta ≠ [] := by
        intro hcontr
        rw [hcontr] at hl
        exact absurd hl (by simp)
      simp [List.length_dropLast]
      have := List.length_pos.mpr hne
      omega
  unfold historyTransition
  set beta2 := setLastStateRoot preBeta inp.parentStateRoot with hbeta2
  set nb := historyNewBlock kek rootH preBeta inp with hnb
  by_cases hbig : 8 < (beta2 ++ [nb]).length
  · have hbig' : 8 < beta2.length + 1 := by
      simpa using hbig
    have hk : (beta2 ++ [nb]).length - 8 ≤ beta2.length := by
      simp only [List.length_append, List.length_cons, List.length_nil]
      omega
    simp only [if_pos hbig]
    rw [List.drop_append_of_le_length hk]
    refine ⟨?_, ?_, rfl, ?_, ?_⟩
    · simp only [List.length_append, List.length_cons, List.length_nil,
        List.length_drop]
      omega
    · exact List.getLast?_concat _
    · intro b hb
      rw [List.dropLast_concat]
      have hkb : (beta2 ++ [nb]).length - 8 < beta2.length := by
        simp only [List.length_append, List.length_cons, List.length_nil]
        omega
      rw [getLast?_drop_of_lt beta2 _ hkb]
      rw [hbeta2]
      unfold setLastStateRoot
      rw [hb]
      exact List.getLast?_concat _
    · exact ⟨(beta2 ++ [nb]).length - 8, by rw [List.drop_append_of_le_length hk]⟩
  · simp only [if_neg hbig]
    refine ⟨by simpa using hbig, List.getLast?_concat _, rfl, ?_, ⟨0, by simp⟩⟩
    intro b hb
    rw [List.dropLast_concat]
    rw [hbeta2]
    unfold setLastStateRoot
    rw [hb]
    exact List.getLast?_concat _

/-- Concrete single-entry history pre-state. -/
def hBetaW : List HBlock := [⟨100, 200, ⟨[some 5], 1⟩, []⟩]

/-- Concrete history input. -/
def hInW : HInput := ⟨7, 8, 9, [3]⟩

theorem history_transition_correct_witness :
    (historyTransition (fun a b => a * 1000 + b) (fun h ps => h * 7 + ps.length)
        hBetaW hInW).length ≤ 8 ∧
    (historyTransition (fun a b => a * 1000 + b) (fun h ps => h * 7 + ps.length)
        hBetaW hInW).getLast? =
      some (historyNewBlock (fun a b => a * 1000 + b) (fun h ps => h * 7 + ps.length)
        hBetaW hInW) ∧
    (historyNewBlock (fun a b => a * 1000 + b) (fun h ps => h * 7 + ps.length)
        hBetaW hInW).stateRoot =
      (fun h ps => h * 7 + ps.length) hInW.headerHash
        ((mmrAppend (fun a b => a * 1000 + b) (tailMmr hBetaW)
          hInW.accumulateRoot).peaks.filterMap id) ∧
    (∀ b, hBetaW.getLast? = some b →
      (historyTransition (fun a b => a * 1000 + b) (fun h ps => h * 7 + ps.length)
          hBetaW hInW).dropLast.getLast? =
        some { b with stateRoot := hInW.parentStateRoot }) ∧
    ∃ k, historyTransition (fun a b => a * 1000 + b) (fun h ps => h * 7 + ps.length)
        hBetaW hInW =
      (setLastStateRoot hBetaW hInW.parentStateRoot ++
        [historyNewBlock (fun a b => a * 1000 + b) (fun h ps => h * 7 + ps.length)
          hBetaW hInW]).drop k :=
  history_transition_correct (fun a b => a * 1000 + b)
    (fun h ps => h * 7 + ps.length) hBetaW hInW

/-! ## Preimages STF

Embedding of the preimage-processing loop of `run_preimage_test`
(`Jam-preimages/src/stf/run_test.py`, lines 184-335).  `H blob` models
`hash_blob` (blake2b-256 of the blob bytes); blobs are byte lists, so
`|blob|` is `blob.length` (the source computes `(len(hex) - 2) // 2`).
When the test vector expects `preimage_unneeded` the runner returns the
pre-state before processing anything (lines 186-190); that flag is the
`expectUnneeded` parameter. -/

/-- Entry of an account's `preimages`: `{hash, blob}`. -/
structure PEntry where
  hash : Nat
  blob : List Nat
  deriving DecidableEq, Repr, Inhabited

/-- Entry of an account's `lookup_meta`: key `{hash, length}` and the slot
list value. -/
structure LEntry where
  keyHash : Nat
  keyLength : Nat
  value : List Nat
  deriving DecidableEq, Repr, Inhabited

/-- A service account: id, provided preimages, solicitation metadata. -/
structure PAccount where
  id : Nat
  preimages : List PEntry
  lookupMeta : List LEntry
  deriving DecidableEq, Repr, Inhabited

/-- Per-service statistics record (only the preimage counters are touched). -/
structure PStat where
  id : Nat
  providedCount : Nat
  providedSize : Nat
  deriving DecidableEq, Repr, Inhabited

/-- The preimages STF state: accounts and statistics. -/
structure PState where
  accounts : List PAccount
  statistics : List PStat
  deriving DecidableEq, Repr, Inhabited

/-- Sort order for `account.data.preimages.sort(key=lambda x: x.hash)`. -/
def pentryLE (a b : PEntry) : Prop := a.hash ≤ b.hash

instance : DecidableRel pentryLE := fun x y => Nat.decLe x.hash y.hash

instance : IsTotal PEntry pentryLE := ⟨fun a b => Nat.le_total a.hash b.hash⟩

instance : IsTrans PEntry pentryLE := ⟨fun _ _ _ h1 h2 => Nat.le_trans h1 h2⟩

/-- Update of the statistics list: bump the first record with the
requester's id, or append a fresh record (created zeroed, then bumped). -/
def bumpStats (req size : Nat) : List PStat → List PStat
  | [] => [⟨req, 1, size⟩]
  | s :: rest =>
    if s.id = req then ⟨s.id, s.providedCount + 1, s.providedSize + size⟩ :: rest
    else s :: bumpStats req size rest

/-- Replace the first element whose id matches the replacement's id (the
source's account-scan loop has no break, so the last match of the original
order — the first of the reversed list — is the mutated object). -/
def replaceFirst : List PAccount → PAccount → List PAccount
  | [], _ => []
  | a :: rest, acc' =>
    if a.id = acc'.id then acc' :: rest else a :: replaceFirst rest acc'

/-- Processing of a single `{requester, blob}` preimage (lines 194-334):
unknown requesters get a fresh empty account; already-provided preimages
are skipped; a preimage found in `lookup_meta` **by hash** is appended,
the preimage list re-sorted, every hash-matching `lookup_meta` entry gains
the slot (if absent), and the statistics are bumped; otherwise the
preimage is skipped. -/
def preimageStep (H : List Nat → Nat) (slot : Nat) (st : PState)
    (req : Nat) (blob : List Nat) : PState :=
  let hv := H blob
  match st.accounts.reverse.find? (fun a => a.id = req) with
  | none => { st with accounts := st.accounts ++ [⟨req, [], []⟩] }
  | some acc =>
    if acc.preimages.any (fun p => p.hash = hv) then st
    else if acc.lookupMeta.any (fun e => e.keyHash = hv) then
      let acc' : PAccount := ⟨acc.id,
        List.insertionSort pentryLE (acc.preimages ++ [⟨hv, blob⟩]),
        acc.lookupMeta.map (fun e =>
          if e.keyHash = hv then
            ⟨e.keyHash, e.keyLength,
              if slot ∈ e.value then e.value else e.value ++ [slot]⟩
          else e)⟩
      ⟨(replaceFirst st.accounts.reverse acc').reverse,
        bumpStats req blob.length st.statistics⟩
    else st

/-- The preimage-processing part of `run_preimage_test`: when the vector
expects `preimage_unneeded` the pre-state is returned untouched; otherwise
each input preimage is processed in order. -/
def runPreimages (H : List Nat → Nat) (expectUnneeded : Bool) (slot : Nat)
    (ps : List (Nat × List Nat)) (pre : PState) : PState :=
  if expectUnneeded then pre
  else ps.foldl (fun st p => preimageStep H slot st p.1 p.2) pre

/-- Account whose `lookup_meta` entry matches the blob's hash but not its
length. -/
def pPreW : PState := ⟨[⟨1, [], [⟨2, 7, []⟩]⟩], []⟩

/-- The submitted blob (two bytes, so `H = List.length` hashes it to 2). -/
def pBlobW : List Nat := [10, 20]

/-- Post state: the blob was admitted nevertheless. -/
def pPostW : PState := ⟨[⟨1, [⟨2, [10, 20]⟩], [⟨2, 7, [3]⟩]⟩], [⟨1, 1, 2⟩]⟩

/-- C10 counterexample: the requester account has no `lookup_meta` entry
keyed by `{hash(blob), |blob|}` — the hash matches but the length does not —
yet the code admits the preimage and changes the state, because the match
is on the hash alone; the claim's "admitted exactly when keyed by
`{hash, length}`, otherwise state unchanged" is false on the code. -/
theorem preimage_length_ignored_counterexample :
    (∀ e ∈ (pPreW.accounts.getD 0 default).lookupMeta,
      ¬ (e.keyHash = List.length pBlobW ∧ e.keyLength = pBlobW.length)) ∧
    runPreimages List.length false 3 [(1, pBlobW)] pPreW = pPostW ∧
    pPostW ≠ pPreW := by
  refine ⟨by decide, by decide, by decide⟩

/-- `find?` after replacing the found element finds the replacement. -/
theorem find?_replaceFirst (l : List PAccount) (acc acc' : PAccount)
    (hid : acc'.id = acc.id)
    (hfind : l.find? (fun a => a.id = acc.id) = some acc) :
    (replaceFirst l acc').find? (fun a => a.id = acc.id) = some acc' := by
  induction l with
  | nil => simp at hfind
  | cons a rest ih =>
    by_cases ha : a.id = acc.id
    · rw [List.find?_cons_of_pos _ (by simpa using ha)] at hfind
      unfold replaceFirst
      rw [if_pos (by rw [hid]; exact ha)]
      exact List.find?_cons_of_pos _ (by simpa using hid)
    · rw [List.find?_cons_of_neg _ (by simpa using ha)] at hfind
      unfold replaceFirst
      rw [if_neg (by rw [hid]; exact ha)]
      rw [List.find?_cons_of_neg _ (by simpa using ha)]
      exact ih hfind

/-- C10 (amended): with the runner not in the `preimage_unneeded` vector
mode, a single submitted preimage `{requester, blob}` whose hash is not yet
among the requester's preimages is admitted exactly when the requester's
account has a `lookup_meta` entry whose key **hash** equals
`blake2b-256(blob)` — the key's length is not compared; an unsolicited
preimage is skipped and the state left unchanged (no error is produced by
the processing path); on admission every hash-matching `lookup_meta` entry
gains the current slot (when absent). -/
theorem preimage_admission_iff (H : List Nat → Nat) (slot : Nat) (st : PState)
    (req : Nat) (blob : List Nat) (acc : PAccount)
    (hacc : st.accounts.reverse.find? (fun a => a.id = req) = some acc)
    (hnew : ∀ p ∈ acc.preimages, p.hash ≠ H blob) :
    ∃ acc', (runPreimages H false slot [(req, blob)] st).accounts.reverse.find?
        (fun a => a.id = req) = some acc' ∧
      ((∃ p ∈ acc'.preimages, p.hash = H blob) ↔
        (∃ e ∈ acc.lookupMeta, e.keyHash = H blob)) ∧
      ((∃ e ∈ acc.lookupMeta, e.keyHash = H blob) →
        acc'.lookupMeta = acc.lookupMeta.map (fun e =>
          if e.keyHash = H blob then
            ⟨e.keyHash, e.keyLength,
              if slot ∈ e.value then e.value else e.value ++ [slot]⟩
          else e)) ∧
      ((¬ ∃ e ∈ acc.lookupMeta, e.keyHash = H blob) →
        runPreimages H false slot [(req, blob)] st = st) := by
  have hreq : acc.id = req := by
    have := List.find?_some hacc
    simpa using this
  have hrun : runPreimages H false slot [(req, blob)] st =
      preimageStep H slot st req blob := by
    unfold runPreimages
    simp
  rw [hrun]
  unfold preimageStep
  rw [hacc]
  dsimp only
  have hany : acc.preimages.any (fun p => p.hash = H blob) = false := by
    rw [List.any_eq_false]
    intro p hp
    simpa using hnew p hp
  rw [hany]
  simp only [Bool.false_eq_true, if_false]
  by_cases hsol : acc.lookupMeta.any (fun e => e.keyHash = H blob) = true
  · rw [if_pos hsol]
    have hsol' : ∃ e ∈ acc.lookupMeta, e.keyHash = H blob := by
      obtain ⟨e, he, hee⟩ := List.any_eq_true.mp hsol
      exact ⟨e, he, by simpa using hee⟩
    refine ⟨⟨acc.id,
        List.insertionSort pentryLE (acc.preimages ++ [⟨H blob, blob⟩]),
        acc.lookupMeta.map (fun e =>
          if e.keyHash = H blob then
            ⟨e.keyHash, e.keyLength,
              if slot ∈ e.value then e.value else e.value ++ [slot]⟩
          else e)⟩, ?_, ?_, ?_, ?_⟩
    · rw [List.reverse_reverse, ← hreq]
      have hacc' := hacc
      rw [← hreq] at hacc'
      exact find?_replaceFirst st.accounts.reverse acc _ rfl hacc'
    · constructor
      · intro _; exact hsol'
      · intro _
        refine ⟨⟨H blob, blob⟩, ?_, rfl⟩
        have hperm := List.perm_insertionSort pentryLE (acc.preimages ++ [⟨H blob, blob⟩])
        exact hperm.mem_iff.mpr (by simp)
    · intro _; rfl
    · intro hcontr; exact absurd hsol' hcontr
  · rw [if_neg hsol]
    refine ⟨acc, hacc, ?_, ?_, fun _ => rfl⟩
    · constructor
      · rintro ⟨p, hp, hph⟩
        exact absurd hph (hnew p hp)
      · rintro ⟨e, he, hee⟩
        exact absurd (List.any_eq_true.mpr ⟨e, he, by simpa using hee⟩) hsol
    · rintro ⟨e, he, hee⟩
      exact absurd (List.any_eq_true.mpr ⟨e, he, by simpa using hee⟩) hsol

theorem preimage_admission_iff_witness :
    pPreW.accounts.reverse.find? (fun a => a.id = 1) = some ⟨1, [], [⟨2, 7, []⟩]⟩ ∧
    (∀ p ∈ ([] : List PEntry), p.hash ≠ List.length pBlobW) ∧
    (∃ acc', (runPreimages List.length false 3 [(1, pBlobW)] pPreW).accounts.reverse.find?
        (fun a => a.id = 1) = some acc' ∧
      ((∃ p ∈ acc'.preimages, p.hash = List.length pBlobW) ↔
        (∃ e ∈ ([⟨2, 7, []⟩] : List LEntry), e.keyHash = List.length pBlobW)) ∧
      ((∃ e ∈ ([⟨2, 7, []⟩] : List LEntry), e.keyHash = List.length pBlobW) →
        acc'.lookupMeta = ([⟨2, 7, []⟩] : List LEntry).map (fun e =>
          if e.keyHash = List.length pBlobW then
            ⟨e.keyHash, e.keyLength,
              if 3 ∈ e.value then e.value else e.value ++ [3]⟩
          else e)) ∧
      ((¬ ∃ e ∈ ([⟨2, 7, []⟩] : List LEntry), e.keyHash = List.length pBlobW) →
        runPreimages List.length false 3 [(1, pBlobW)] pPreW = pPreW)) :=
  ⟨by decide, by decide,
    preimage_admission_iff List.length 3 pPreW 1 pBlobW ⟨1, [], [⟨2, 7, []⟩]⟩
      (by decide) (by decide)⟩

end Spec2Proof

